import Mathlib

/-!
Verification development for the TextGrid-reconstruction core of the
Montreal Forced Aligner (file `montreal_forced_aligner/textgrid.py`).

Modelling conventions:
* Python strings are modelled as `List Char` (named `Str`); `strL` converts a
  Lean string literal to this representation.
* Python floats are modelled as exact rationals (`ℚ`); `round(x, 4)` is
  modelled by `round4`, which rounds half-to-even like Python's `round`.
* Fallible code (code that can raise `IndexError` / `ValueError`, etc.)
  is modelled with `Option`: `none` is a raised exception.
* Python dicts are modelled as association lists in insertion order.
-/

/-- Python strings are modelled as lists of characters. -/
abbrev Str := List Char

/-- Convert a Lean string literal to the `Str` model. -/
def strL (s : String) : Str := s.toList

/-- Model of splitting on a character class, `re.split(rf"[{markers}]", s)`:
split at every occurrence of any marker character, keeping empty segments.
Always returns at least one segment. -/
def splitOnChars (ms : List Char) : Str → List Str
  | [] => [[]]
  | c :: rest =>
    if c ∈ ms then [] :: splitOnChars ms rest
    else
      match splitOnChars ms rest with
      | [] => [[c]]
      | seg :: segs => (c :: seg) :: segs

/-- Model of `re.split(rf"[{markers}]", s, maxsplit=1)`: split at the first
occurrence of any marker character; `none` when no marker occurs. -/
def splitFirst (ms : List Char) : Str → Option (Str × Str)
  | [] => none
  | c :: rest =>
    if c ∈ ms then some ([], rest)
    else
      match splitFirst ms rest with
      | none => none
      | some (i, f) => some (c :: i, f)

/-- Model of `any(x in item for x in markers)`. -/
def containsAny (item : Str) (ms : List Char) : Bool :=
  ms.any (fun m => item.contains m)

/-- Value of a decimal digit character. -/
def digitVal? (c : Char) : Option ℕ :=
  if c.isDigit then some (c.toNat - 48) else none

/-- Parse a run of decimal digits (most significant first) into a natural
number, accumulating into `acc`; fails on any non-digit. -/
def digitsVal? : Str → ℕ → Option ℕ
  | [], acc => some acc
  | c :: rest, acc =>
    match digitVal? c with
    | some d => digitsVal? rest (acc * 10 + d)
    | none => none

/-- Strip an optional leading sign, returning the sign and the rest. -/
def pySign : Str → Int × Str
  | '-' :: rest => (-1, rest)
  | '+' :: rest => (1, rest)
  | s => (1, s)

/-- Syntactic part of parsing a decimal literal: sign, integer-part value,
fraction-part value, and number of fraction digits.  Fully decidable. -/
def pyFloatParts (s : Str) : Option (Int × ℕ × ℕ × ℕ) :=
  let sgn := (pySign s).1
  let body := (pySign s).2
  match splitFirst ['.'] body with
  | none =>
    if body = [] then none
    else (digitsVal? body 0).map (fun n => (sgn, n, 0, 0))
  | some (ip, fp) =>
    if ip = [] ∧ fp = [] then none
    else
      match digitsVal? ip 0, digitsVal? fp 0 with
      | some i, some f => some (sgn, i, f, fp.length)
      | _, _ => none

/-- Model of Python `float(s)` on plain decimal notation (optional sign,
digits with at most one point; no exponent). `none` models `ValueError`. -/
def pyFloat (s : Str) : Option ℚ :=
  (pyFloatParts s).map (fun p => (p.1 : ℚ) * ((p.2.1 : ℚ) + (p.2.2.1 : ℚ) / (10 : ℚ) ^ p.2.2.2))

/-- Model of Python `int(s)`; `none` models `ValueError`. -/
def pyInt (s : Str) : Option Int :=
  let sgn := (pySign s).1
  let body := (pySign s).2
  if body = [] then none
  else (digitsVal? body 0).map (fun n => sgn * n)

/-- Floor of a rational as an integer (computably, via floor division of the
numerator by the denominator). -/
def ratFloorI (q : ℚ) : ℤ := Int.fdiv q.num (q.den : ℤ)

/-- Round a rational to the nearest integer, ties to even (the rounding of
Python's `round`). -/
def roundHalfEven (q : ℚ) : ℤ :=
  let f := ratFloorI q
  let r := q - (f : ℚ)
  if r < 1 / 2 then f
  else if 1 / 2 < r then f + 1
  else if f % 2 = 0 then f else f + 1

/-- Model of Python `round(x, 4)`. -/
def round4 (q : ℚ) : ℚ := (roundHalfEven (q * 10000) : ℚ) / 10000

/-- Model of Python `line.split(" ")` (single-character separator, keeping
empty fields). -/
def pySplit (sep : Char) (s : Str) : List Str := splitOnChars [sep] s

/-- Data class for intervals derived from CTM files (`CtmInterval` in
`textgrid.py`).  Times are rationals modelling Python floats.  The
`utterance` field is optional because `parse_from_word` stores its local
`utterance` variable, which is initialised to `None`, into the intervals it
builds. -/
structure CtmInterval where
  begin : ℚ
  «end» : ℚ
  label : Str
  utterance : Option Str
deriving DecidableEq

/-- Helper function for parsing a line of a CTM file
(`process_ctm_line` in `textgrid.py`).  The line is split on single spaces;
fields 0, 2, 3, 4 are utterance, begin, duration, label (field 1, the
channel, is ignored).  `none` models the `IndexError`/`ValueError` raised on
missing or malformed fields. -/
def process_ctm_line (line : Str) : Option CtmInterval :=
  let fields := pySplit ' ' line
  match fields[0]?, fields[2]?, fields[3]?, fields[4]? with
  | some utt, some f2, some f3, some f4 =>
    match pyFloat f2, pyFloat f3 with
    | some b0, some dur =>
      let b := round4 b0
      let e := round4 (b + dur)
      some ⟨b, e, f4, some utt⟩
    | _, _ => none
  | _, _, _, _ => none

example : process_ctm_line (strL "u 1 2.0000") = none := by decide

/-- Flooring an integer is the identity. -/
lemma ratFloorI_intCast (n : ℤ) : ratFloorI (n : ℚ) = n := by
  rw [ratFloorI, Rat.num_intCast, Rat.den_intCast]
  rw [show ((1 : ℕ) : ℤ) = 1 from rfl, Int.fdiv_eq_ediv _ (by norm_num)]
  exact Int.ediv_one n

/-- Rounding an integer is the identity. -/
lemma roundHalfEven_intCast (n : ℤ) : roundHalfEven (n : ℚ) = n := by
  rw [roundHalfEven, ratFloorI_intCast]
  norm_num

/-- Evaluation rule for `round4` at exact 4-decimal values. -/
lemma round4_exact (q : ℚ) (n : ℤ) (h : q * 10000 = (n : ℚ)) :
    round4 q = (n : ℚ) / 10000 := by
  rw [round4, h, roundHalfEven_intCast]

/-- Concrete evaluation: `float("2.0000") = 2`. -/
lemma pyFloat_2_0000 : pyFloat (strL "2.0000") = some 2 := by
  have h : pyFloatParts (strL "2.0000") = some (1, 2, 0, 4) := by decide
  rw [pyFloat, h]
  norm_num

/-- Concrete evaluation: `float("0.5000") = 1/2`. -/
lemma pyFloat_0_5000 : pyFloat (strL "0.5000") = some (1 / 2) := by
  have h : pyFloatParts (strL "0.5000") = some (1, 0, 5000, 4) := by decide
  rw [pyFloat, h]
  norm_num

/-- Helper: shape of a successful `process_ctm_line` parse. -/
lemma process_ctm_line_success (line utt ch f2 f3 lab : Str) (rest : List Str)
    (b0 dur : ℚ)
    (hs : pySplit ' ' line = utt :: ch :: f2 :: f3 :: lab :: rest)
    (h2 : pyFloat f2 = some b0) (h3 : pyFloat f3 = some dur) :
    process_ctm_line line =
      some ⟨round4 b0, round4 (round4 b0 + dur), lab, some utt⟩ := by
  simp only [process_ctm_line, hs, List.getElem?_cons_zero, List.getElem?_cons_succ, h2, h3]

/-- C8: on a line with at least five space-separated fields whose third and
fourth fields parse as decimal numbers, `process_ctm_line` returns an
interval whose `begin` is the third field rounded to 4 decimal places, whose
`end` is `begin + duration` rounded to 4 decimal places, whose label is the
fifth field and whose utterance is the first field. -/
theorem process_ctm_line_fields (line utt ch f2 f3 lab : Str) (rest : List Str)
    (b0 dur : ℚ)
    (hs : pySplit ' ' line = utt :: ch :: f2 :: f3 :: lab :: rest)
    (h2 : pyFloat f2 = some b0) (h3 : pyFloat f3 = some dur) :
    process_ctm_line line =
      some ⟨round4 b0, round4 (round4 b0 + dur), lab, some utt⟩ :=
  process_ctm_line_success line utt ch f2 f3 lab rest b0 dur hs h2 h3

/-- C8 witness: parsing `"u 1 2.0000 0.5000 5"` yields
`begin = 2.0`, `end = 2.5`, `label = "5"`, `utterance = "u"`. -/
theorem process_ctm_line_fields_witness :
    process_ctm_line (strL "u 1 2.0000 0.5000 5") =
      some ⟨2, 5 / 2, strL "5", some (strL "u")⟩ := by
  have h := process_ctm_line_fields (strL "u 1 2.0000 0.5000 5") (strL "u") (strL "1")
    (strL "2.0000") (strL "0.5000") (strL "5") [] 2 (1 / 2)
    (by decide) pyFloat_2_0000 pyFloat_0_5000
  rw [h]
  have hr2 : round4 2 = 2 := by
    rw [round4_exact 2 20000 (by norm_num)]; norm_num
  rw [hr2]
  have hr25 : round4 (2 + 1 / 2) = 5 / 2 := by
    rw [round4_exact _ 25000 (by norm_num)]; norm_num
  rw [hr25]

/-- C6 counterexample: a line with six space-separated fields (one more than
the record format) is parsed successfully — the extra field is ignored, so
the parser does not fail on every field-count mismatch. -/
theorem process_ctm_line_six_fields_ok :
    (pySplit ' ' (strL "u 1 2.0000 0.5000 5 x")).length = 6 ∧
    (process_ctm_line (strL "u 1 2.0000 0.5000 5 x")).isSome = true := by
  refine ⟨by decide, ?_⟩
  rw [process_ctm_line_success (strL "u 1 2.0000 0.5000 5 x") (strL "u") (strL "1")
    (strL "2.0000") (strL "0.5000") (strL "5") [strL "x"] 2 (1 / 2)
    (by decide) pyFloat_2_0000 pyFloat_0_5000]
  rfl

/-- C6 (amended): `process_ctm_line` succeeds exactly when the line has at
least five space-separated fields and the third and fourth fields parse as
decimal numbers; with fewer than five fields (or a malformed numeric field)
it fails.  Fields beyond the fifth are ignored, not rejected. -/
theorem process_ctm_line_parse_iff (line : Str) :
    (process_ctm_line line).isSome = true ↔
      (5 ≤ (pySplit ' ' line).length ∧
       ((pySplit ' ' line)[2]?.bind pyFloat).isSome = true ∧
       ((pySplit ' ' line)[3]?.bind pyFloat).isSome = true) := by
  simp only [process_ctm_line]
  generalize pySplit ' ' line = F
  rcases F with _ | ⟨a0, _ | ⟨a1, _ | ⟨a2, _ | ⟨a3, _ | ⟨a4, rest⟩⟩⟩⟩⟩
  · simp
  · simp
  · simp
  · simp
  · simp
  · cases h2 : pyFloat a2 <;> cases h3 : pyFloat a3 <;> simp [h2, h3]

/-- `splitOnChars` never returns the empty list. -/
lemma splitOnChars_ne_nil (ms : List Char) (l : Str) : splitOnChars ms l ≠ [] := by
  induction l with
  | nil => simp [splitOnChars]
  | cons c rest ih =>
    rw [splitOnChars]
    split
    · simp
    · cases h : splitOnChars ms rest with
      | nil => simp
      | cons seg segs => simp

/-- Every segment produced by `splitOnChars` is no longer than the input. -/
lemma splitOnChars_seg_le (ms : List Char) (l : Str) :
    ∀ seg ∈ splitOnChars ms l, seg.length ≤ l.length := by
  induction l with
  | nil => intro seg hs; simp [splitOnChars] at hs; simp [hs]
  | cons c rest ih =>
    intro seg hs
    rw [splitOnChars] at hs
    by_cases hc : c ∈ ms
    · simp only [if_pos hc, List.mem_cons] at hs
      rcases hs with h | h
      · simp [h]
      · exact Nat.le_succ_of_le (ih seg h)
    · rw [if_neg hc] at hs
      cases h : splitOnChars ms rest with
      | nil => exact absurd h (splitOnChars_ne_nil ms rest)
      | cons seg0 segs =>
        rw [h] at hs
        rcases List.mem_cons.mp hs with h1 | h1
        · subst h1
          have : seg0 ∈ splitOnChars ms rest := by rw [h]; exact List.mem_cons_self _ _
          have := ih seg0 this
          simpa using Nat.succ_le_succ this
        · have : seg ∈ splitOnChars ms rest := by rw [h]; exact List.mem_cons_of_mem _ h1
          exact Nat.le_succ_of_le (ih seg this)

/-- If some marker occurs in the input, every segment produced by
`splitOnChars` is strictly shorter than the input. -/
lemma splitOnChars_seg_lt (ms : List Char) (l : Str) (hm : ∃ c ∈ l, c ∈ ms) :
    ∀ seg ∈ splitOnChars ms l, seg.length < l.length := by
  induction l with
  | nil => rcases hm with ⟨c, hc, _⟩; simp at hc
  | cons c rest ih =>
    intro seg hs
    rw [splitOnChars] at hs
    by_cases hc : c ∈ ms
    · simp only [if_pos hc, List.mem_cons] at hs
      rcases hs with h | h
      · simp [h]
      · exact Nat.lt_succ_of_le (splitOnChars_seg_le ms rest seg h)
    · rw [if_neg hc] at hs
      have hm' : ∃ x ∈ rest, x ∈ ms := by
        rcases hm with ⟨x, hx, hxm⟩
        rcases List.mem_cons.mp hx with h1 | h1
        · exact absurd (h1 ▸ hxm) hc
        · exact ⟨x, h1, hxm⟩
      cases h : splitOnChars ms rest with
      | nil => exact absurd h (splitOnChars_ne_nil ms rest)
      | cons seg0 segs =>
        rw [h] at hs
        rcases List.mem_cons.mp hs with h1 | h1
        · subst h1
          have : seg0 ∈ splitOnChars ms rest := by rw [h]; exact List.mem_cons_self _ _
          have := ih hm' seg0 this
          simpa using Nat.succ_lt_succ this
        · have : seg ∈ splitOnChars ms rest := by rw [h]; exact List.mem_cons_of_mem _ h1
          exact Nat.lt_succ_of_le (Nat.le_of_lt (ih hm' seg this))

/-- A successful `splitFirst` decomposes the input around a marker char. -/
lemma splitFirst_eq (ms : List Char) (l i f : Str)
    (h : splitFirst ms l = some (i, f)) : ∃ c ∈ ms, l = i ++ c :: f := by
  induction l generalizing i f with
  | nil => simp [splitFirst] at h
  | cons c rest ih =>
    rw [splitFirst] at h
    by_cases hc : c ∈ ms
    · rw [if_pos hc] at h
      obtain ⟨h1, h2⟩ := Prod.mk.injEq .. ▸ Option.some.injEq .. ▸ h
      exact ⟨c, hc, by simp [← h1, ← h2]⟩
    · rw [if_neg hc] at h
      cases hsf : splitFirst ms rest with
      | none => rw [hsf] at h; exact absurd h (by simp)
      | some p =>
        rcases p with ⟨i0, f0⟩
        rw [hsf] at h
        simp only [Option.some.injEq, Prod.mk.injEq] at h
        rcases h with ⟨h1, h2⟩
        rcases ih i0 f0 hsf with ⟨m, hm, he⟩
        exact ⟨m, hm, by simp [← h1, ← h2, he]⟩

/-- The tail returned by a successful `splitFirst` is strictly shorter. -/
lemma splitFirst_tail_lt (ms : List Char) (l i f : Str)
    (h : splitFirst ms l = some (i, f)) : f.length < l.length := by
  rcases splitFirst_eq ms l i f h with ⟨c, _, he⟩
  subst he
  simp [List.length_append]
  omega

/-- Marker containment implies `containsAny`. -/
lemma containsAny_iff (item : Str) (ms : List Char) :
    containsAny item ms = true ↔ ∃ c ∈ ms, c ∈ item := by
  simp [containsAny, List.contains, List.elem_eq_mem]

/-- If `containsAny` holds then `splitFirst` succeeds. -/
lemma splitFirst_isSome (ms : List Char) (l : Str) (hm : ∃ c ∈ l, c ∈ ms) :
    (splitFirst ms l).isSome = true := by
  induction l with
  | nil => rcases hm with ⟨c, hc, _⟩; simp at hc
  | cons c rest ih =>
    rw [splitFirst]
    by_cases hc : c ∈ ms
    · simp [if_pos hc]
    · rw [if_neg hc]
      have hm' : ∃ x ∈ rest, x ∈ ms := by
        rcases hm with ⟨x, hx, hxm⟩
        rcases List.mem_cons.mp hx with h1 | h1
        · exact absurd (h1 ▸ hxm) hc
        · exact ⟨x, h1, hxm⟩
      cases hsf : splitFirst ms rest with
      | none => rw [hsf] at ih; simp at ih; exact absurd hm' (by simpa using ih)
      | some p => simp

/-- Membership test in a Python dict keyed by words (`item in words_mapping`). -/
def inMapping (wm : List (Str × Int)) (item : Str) : Bool :=
  wm.any (fun kv => kv.1 == item)

/-- Lookup in a Python dict keyed by words (`words_mapping[item]`); callers
only use it after `inMapping` has succeeded, so the default is irrelevant. -/
def getMapping (wm : List (Str × Int)) (item : Str) : Int :=
  match wm.find? (fun kv => kv.1 == item) with
  | some kv => kv.2
  | none => 0

/-- Python membership in a set of strings. -/
def inStrSet (s : List Str) (x : Str) : Bool := s.any (fun y => y == x)

/-- Guard of the clitic branch of `split_clitics`:
`any(x in item and not item.endswith(x) and not item.startswith(x) for x in clitic_markers)`. -/
def cliticInside (item : Str) (ms : List Char) : Bool :=
  ms.any (fun x => item.contains x && !(item.getLast? == some x) && !(item.head? == some x))

/-- The final `for clitic in clitic_markers` loop of `split_clitics`: the
first marker for which `initial + clitic` is a known clitic wins; otherwise
the first marker for which `clitic + final[0]` is a known clitic wins (the
marker is absorbed into `final[0]`); `none` when no marker matches. -/
def tryCliticLoop (clitic_set : List Str) (initial : Str) (final : List Str) :
    List Char → Option (List Str)
  | [] => none
  | c :: rest =>
    if inStrSet clitic_set (initial ++ [c]) then some ((initial ++ [c]) :: final)
    else if inStrSet clitic_set (c :: final.headD []) then
      some (initial :: (c :: final.headD []) :: final.tail)
    else tryCliticLoop clitic_set initial final rest

/-- Fuel-indexed body of `split_clitics`.  The Python function recurses on
strictly shorter strings (`splitOnChars_seg_lt`, `splitFirst_tail_lt`), so a
fuel of `item.length + 1` always suffices and the fuel-exhausted branch is
unreachable; the fuel only makes the recursion structural. -/
def splitCliticsFuel (words_mapping : List (Str × Int)) (clitic_set : List Str)
    (clitic_markers : List Char) (compound_markers : List Char) : ℕ → Str → List Str
  | 0, item => [item]
  | fuel + 1, item =>
    if inMapping words_mapping item then [item]
    else if containsAny item compound_markers then
      let s := splitOnChars compound_markers item
      if containsAny item clitic_markers then
        (s.map (fun seg =>
          if containsAny seg clitic_markers then
            splitCliticsFuel words_mapping clitic_set clitic_markers compound_markers fuel seg
          else [seg])).flatten
      else s
    else if cliticInside item clitic_markers then
      match splitFirst clitic_markers item with
      | none => [item]
      | some (initial, final0) =>
        let final :=
          if containsAny final0 clitic_markers then
            splitCliticsFuel words_mapping clitic_set clitic_markers compound_markers fuel
              final0
          else [final0]
        match tryCliticLoop clitic_set initial final clitic_markers with
        | some r => r
        | none => [item]
    else [item]

/-- Split a word into subwords based on dictionary information
(`split_clitics` in `textgrid.py`). -/
def split_clitics (item : Str) (words_mapping : List (Str × Int)) (clitic_set : List Str)
    (clitic_markers : List Char) (compound_markers : List Char) : List Str :=
  splitCliticsFuel words_mapping clitic_set clitic_markers compound_markers
    (item.length + 1) item

example :
    split_clitics (strL "cat-s") [(strL "cat", 1), (strL "-s", 2)] [strL "-s"] ['-'] [] =
      [strL "cat", strL "-s"] := by decide

example :
    split_clitics (strL "a_b") [(strL "a", 1), (strL "b", 2)] [] [] ['_'] =
      [strL "a", strL "b"] := by decide

/-- Modelled from the spec: `sanitize` lives in
`montreal_forced_aligner/dictionary.py`, which is not among the provided
sources; per the spec (section 4.2) it strips punctuation characters that
are not used as clitic markers. -/
def sanitize (item : Str) (punctuation : List Char) (clitic_markers : List Char) : Str :=
  item.filter (fun c => !(punctuation.contains c && !(clitic_markers.contains c)))

/-- Look up a word and return the list of sub words if necessary, taking
into account clitic and compound markers (`_lookup` in `textgrid.py`). -/
def _lookup (item : Str) (words_mapping : List (Str × Int)) (punctuation : List Char)
    (clitic_set : List Str) (clitic_markers : List Char) (compound_markers : List Char) :
    List Str :=
  if inMapping words_mapping item then [item]
  else
    let sanitized := sanitize item punctuation clitic_markers
    if inMapping words_mapping sanitized then [sanitized]
    else
      let split := split_clitics sanitized words_mapping clitic_set clitic_markers
        compound_markers
      let oov_count := (split.filter (fun x => !inMapping words_mapping x)).length
      if oov_count < split.length then split else [sanitized]

/-- Convert a given word into integer IDs (`to_int` in `textgrid.py`):
empty subwords are skipped, out-of-vocabulary subwords map to `oov_int`. -/
def to_int (item : Str) (words_mapping : List (Str × Int)) (punctuation : List Char)
    (clitic_set : List Str) (clitic_markers : List Char) (compound_markers : List Char)
    (oov_int : Int) : List Int :=
  if item = [] then []
  else
    ((_lookup item words_mapping punctuation clitic_set clitic_markers
          compound_markers).filter (fun x => !(x == []))).map
      (fun x => if !inMapping words_mapping x then oov_int else getMapping words_mapping x)

example :
    to_int (strL "cat-s") [(strL "cat", 1), (strL "-s", 2)] [] [strL "-s"] ['-'] [] 0 =
      [1, 2] := by decide

/-- Characters that are neither clitic markers nor compound markers. -/
def keepChar (clitic_markers compound_markers : List Char) (c : Char) : Bool :=
  !(decide (c ∈ clitic_markers) || decide (c ∈ compound_markers))

/-- Concatenating the segments of `splitOnChars` recovers the input minus
the marker characters. -/
lemma splitOnChars_flatten (ms : List Char) (l : Str) :
    (splitOnChars ms l).flatten = l.filter (fun c => !decide (c ∈ ms)) := by
  induction l with
  | nil => simp [splitOnChars]
  | cons c rest ih =>
    rw [splitOnChars]
    by_cases hc : c ∈ ms
    · simp only [if_pos hc, List.flatten_cons, List.nil_append, ih, List.filter_cons]
      simp [hc]
    · rw [if_neg hc]
      cases h : splitOnChars ms rest with
      | nil => exact absurd h (splitOnChars_ne_nil ms rest)
      | cons seg0 segs =>
        have : ((c :: seg0) :: segs).flatten = c :: (seg0 :: segs).flatten := by
          simp
        rw [this, ← h, ih]
        simp [hc]

/-- A successful `tryCliticLoop` returns one of the two absorb shapes, with
the absorbed character one of the markers. -/
lemma tryCliticLoop_shape (cs : List Str) (initial : Str) (final : List Str) :
    ∀ (ms : List Char) (r : List Str), tryCliticLoop cs initial final ms = some r →
      ∃ c ∈ ms, r = (initial ++ [c]) :: final ∨
        r = initial :: (c :: final.headD []) :: final.tail := by
  intro ms
  induction ms with
  | nil => intro r h; simp [tryCliticLoop] at h
  | cons c rest ih =>
    intro r h
    rw [tryCliticLoop] at h
    by_cases h1 : inStrSet cs (initial ++ [c]) = true
    · rw [if_pos h1] at h
      exact ⟨c, List.mem_cons_self c rest, Or.inl (Option.some.inj h).symm⟩
    · rw [if_neg h1] at h
      by_cases h2 : inStrSet cs (c :: final.headD []) = true
      · rw [if_pos h2] at h
        exact ⟨c, List.mem_cons_self c rest, Or.inr (Option.some.inj h).symm⟩
      · rw [if_neg h2] at h
        rcases ih r h with ⟨c', hc', hr⟩
        exact ⟨c', List.mem_cons_of_mem c hc', hr⟩

/-- Filtering by `keepChar` after removing compound markers equals
filtering by `keepChar` directly. -/
lemma filter_keep_filter_pm (cm pm : List Char) (l : Str) :
    (l.filter (fun c => !decide (c ∈ pm))).filter (keepChar cm pm) =
      l.filter (keepChar cm pm) := by
  rw [List.filter_filter]
  apply List.filter_congr
  intro c _
  by_cases h1 : c ∈ cm <;> by_cases h2 : c ∈ pm <;> simp [keepChar, h1, h2]

/-- Distributing a filtered concatenation over a two-level flatten. -/
lemma filter_flatten_flatten (P : Char → Bool) (f : Str → List Str) (s : List Str)
    (h : ∀ seg ∈ s, ((f seg).flatten).filter P = seg.filter P) :
    (((s.map f).flatten).flatten).filter P = (s.flatten).filter P := by
  induction s with
  | nil => simp
  | cons a s' ih =>
    simp only [List.map_cons, List.flatten_cons, List.flatten_append, List.filter_append]
    rw [h a (List.mem_cons_self a s'), ih (fun seg hs => h seg (List.mem_cons_of_mem a hs))]

/-- Content of the clitic branch of `split_clitics`: whatever shape the
marker-absorbing loop returns, the filtered concatenation equals the
filtered original word `initial ++ cmk :: final0`. -/
lemma clitic_branch_content (cm pm : List Char) (cs : List Str) (initial final0 : Str)
    (cmk : Char) (hcmk : cmk ∈ cm) (final : List Str)
    (hfinal : (final.flatten).filter (keepChar cm pm) = final0.filter (keepChar cm pm)) :
    (((match tryCliticLoop cs initial final cm with
        | some r => r
        | none => [initial ++ cmk :: final0]) : List Str).flatten).filter (keepChar cm pm) =
      (initial ++ cmk :: final0).filter (keepChar cm pm) := by
  have hkeep_cmk : keepChar cm pm cmk = false := by simp [keepChar, hcmk]
  cases htc : tryCliticLoop cs initial final cm with
  | none => simp [List.filter_append, List.filter_cons, hkeep_cmk]
  | some r =>
    rcases tryCliticLoop_shape cs initial final cm r htc with ⟨c, hc, hr | hr⟩
    · subst hr
      have hkeep_c : keepChar cm pm c = false := by simp [keepChar, hc]
      simp [List.filter_append, List.filter_cons, hkeep_c, hkeep_cmk, hfinal]
    · subst hr
      have hkeep_c : keepChar cm pm c = false := by simp [keepChar, hc]
      have hsplit : ((final.headD []).filter (keepChar cm pm)) ++
          ((final.tail.flatten).filter (keepChar cm pm)) =
            final0.filter (keepChar cm pm) := by
        cases hf : final with
        | nil =>
          rw [hf] at hfinal
          simp only [List.flatten_nil, List.filter_nil] at hfinal
          simp [← hfinal]
        | cons hd tl =>
          rw [hf] at hfinal
          simp only [List.flatten_cons, List.filter_append] at hfinal
          simpa using hfinal
      simp only [List.flatten_cons, List.filter_append, List.filter_cons, hkeep_c, hkeep_cmk,
        Bool.false_eq_true, if_false]
      rw [hsplit]

/-- Content preservation for the fuel-indexed splitter: concatenating the
split of `item` and dropping marker characters recovers `item` minus its
marker characters. -/
lemma splitCliticsFuel_content (wm : List (Str × Int)) (cs : List Str) (cm pm : List Char) :
    ∀ (fuel : ℕ) (item : Str), item.length < fuel →
      ((splitCliticsFuel wm cs cm pm fuel item).flatten).filter (keepChar cm pm) =
        item.filter (keepChar cm pm) := by
  intro fuel
  induction fuel with
  | zero => intro item h; exact absurd h (Nat.not_lt_zero _)
  | succ fuel ih =>
    intro item hlen
    rw [splitCliticsFuel]
    by_cases hm : inMapping wm item = true
    · simp [hm]
    · rw [if_neg hm]
      by_cases hcomp : containsAny item pm = true
      · rw [if_pos hcomp]
        have hseg : ∀ seg ∈ splitOnChars pm item, seg.length < item.length := by
          apply splitOnChars_seg_lt
          rcases (containsAny_iff item pm).mp hcomp with ⟨c, h1, h2⟩
          exact ⟨c, h2, h1⟩
        by_cases hcl : containsAny item cm = true
        · rw [if_pos hcl]
          have hper : ∀ seg ∈ splitOnChars pm item,
              (((if containsAny seg cm then splitCliticsFuel wm cs cm pm fuel seg
                  else [seg]) : List Str).flatten).filter (keepChar cm pm) =
                seg.filter (keepChar cm pm) := by
            intro seg hs
            by_cases hsc : containsAny seg cm = true
            · rw [if_pos hsc]
              exact ih seg (Nat.lt_of_lt_of_le (hseg seg hs) (Nat.lt_succ_iff.mp hlen))
            · rw [if_neg hsc]; simp
          have key := filter_flatten_flatten (keepChar cm pm)
            (fun seg =>
              if containsAny seg cm then splitCliticsFuel wm cs cm pm fuel seg else [seg])
            (splitOnChars pm item) hper
          rw [key, splitOnChars_flatten, filter_keep_filter_pm]
        · rw [if_neg hcl, splitOnChars_flatten, filter_keep_filter_pm]
      · rw [if_neg hcomp]
        by_cases hcli : cliticInside item cm = true
        · rw [if_pos hcli]
          cases hsf : splitFirst cm item with
          | none => simp
          | some p =>
            rcases p with ⟨initial, final0⟩
            rcases splitFirst_eq cm item initial final0 hsf with ⟨cmk, hcmk, hitem⟩
            have hflen : final0.length < fuel := by
              have : final0.length < item.length := by
                rw [hitem]
                simp only [List.length_append, List.length_cons]
                omega
              exact Nat.lt_of_lt_of_le this (Nat.lt_succ_iff.mp hlen)
            have hfinal :
                ((((if containsAny final0 cm then
                    splitCliticsFuel wm cs cm pm fuel final0
                  else [final0]) : List Str)).flatten).filter (keepChar cm pm) =
                  final0.filter (keepChar cm pm) := by
              by_cases hfc : containsAny final0 cm = true
              · rw [if_pos hfc]
                exact ih final0 hflen
              · rw [if_neg hfc]; simp
            rw [hitem]
            exact clitic_branch_content cm pm cs initial final0 cmk hcmk
              (if containsAny final0 cm then splitCliticsFuel wm cs cm pm fuel final0
               else [final0]) hfinal
        · rw [if_neg hcli]; simp

/-- C3: splitting is content-preserving — concatenating the tokens returned
by `split_clitics` and ignoring clitic/compound marker characters reproduces
exactly the characters of the input word (also ignoring its marker
characters). -/
theorem split_clitics_content (item : Str) (words_mapping : List (Str × Int))
    (clitic_set : List Str) (clitic_markers compound_markers : List Char) :
    ((split_clitics item words_mapping clitic_set clitic_markers
        compound_markers).flatten).filter (keepChar clitic_markers compound_markers) =
      item.filter (keepChar clitic_markers compound_markers) :=
  splitCliticsFuel_content words_mapping clitic_set clitic_markers compound_markers
    (item.length + 1) item (Nat.lt_succ_self _)

/-- C5: for a word not in the vocabulary (directly or after sanitizing),
`_lookup` returns the structural split produced by `split_clitics` exactly
when the split has strictly fewer out-of-vocabulary tokens than total
tokens; otherwise it returns the singleton sanitized word, even though that
word is itself out-of-vocabulary. -/
theorem lookup_split_decision (item : Str) (words_mapping : List (Str × Int))
    (punctuation : List Char) (clitic_set : List Str)
    (clitic_markers compound_markers : List Char)
    (h1 : inMapping words_mapping item = false)
    (h2 : inMapping words_mapping (sanitize item punctuation clitic_markers) = false) :
    _lookup item words_mapping punctuation clitic_set clitic_markers compound_markers =
      (if ((split_clitics (sanitize item punctuation clitic_markers) words_mapping
              clitic_set clitic_markers compound_markers).filter
            (fun x => !inMapping words_mapping x)).length <
          (split_clitics (sanitize item punctuation clitic_markers) words_mapping
              clitic_set clitic_markers compound_markers).length then
        split_clitics (sanitize item punctuation clitic_markers) words_mapping clitic_set
          clitic_markers compound_markers
      else [sanitize item punctuation clitic_markers]) := by
  simp only [_lookup, h1, h2, Bool.false_eq_true, if_false]

/-- C5 witness: the out-of-vocabulary word `"x!"` sanitizes to `"x"`, its
split has no in-vocabulary token, and `_lookup` returns `["x"]`. -/
theorem lookup_split_decision_witness :
    _lookup (strL "x!") [(strL "a", 1)] ['!'] [] [] [] = [strL "x"] := by
  have h := lookup_split_decision (strL "x!") [(strL "a", 1)] ['!'] [] [] []
    (by decide) (by decide)
  rw [h]
  decide

/-- Dictionary data consumed by `parse_from_word` (attribute view of the
upstream `DictionaryData` object; only the fields this module reads). -/
structure DictionaryData where
  words_mapping : List (Str × Int)
  punctuation : List Char
  clitic_set : List Str
  clitic_markers : List Char
  compound_markers : List Char
  oov_int : Int

/-- The expected sub-token id sequence of one word, as computed inside
`parse_from_word` (`to_int` on the fields of the dictionary data). -/
def wordInts (dd : DictionaryData) (w : Str) : List Int :=
  to_int w dd.words_mapping dd.punctuation dd.clitic_set dd.clitic_markers
    dd.compound_markers dd.oov_int

/-- Inner loop of `parse_from_word` over one word's expected ids: consumes
one CTM entry per id, keeps `min`/`max` bounds over entries whose parsed
label equals the expected id, and records the first utterance seen.  `none`
models `IndexError` (stream exhausted) or `ValueError` (non-numeric label). -/
def parseWordLoop (ctm_labels : List CtmInterval) :
    List Int → ℚ → ℚ → Option Str → ℕ → Option (ℚ × ℚ × Option Str × ℕ)
  | [], b, e, utt, ind => some (b, e, utt, ind)
  | i :: rest, b, e, utt, ind =>
    match ctm_labels[ind]? with
    | none => none
    | some cur =>
      let utt' := match utt with
        | none => cur.utterance
        | some u => some u
      match pyInt cur.label with
      | none => none
      | some l =>
        if i = l then
          parseWordLoop ctm_labels rest
            (if cur.begin < b then cur.begin else b)
            (if e < cur.«end» then cur.«end» else e) utt' (ind + 1)
        else parseWordLoop ctm_labels rest b e utt' (ind + 1)

/-- Outer loop of `parse_from_word` over the original words, threading the
cursor `ind` and the utterance seen so far. -/
def parseWordGo (ctm_labels : List CtmInterval) (dd : DictionaryData) :
    List Str → Option Str → ℕ → Option (List CtmInterval)
  | [], _, _ => some []
  | word :: rest, utt, ind =>
    let ints := wordInts dd word
    match parseWordLoop ctm_labels ints 1000000 (-1) utt ind with
    | none => none
    | some (b, e, utt2, ind2) =>
      match parseWordGo ctm_labels dd rest utt2 ind2 with
      | none => none
      | some labs => some (⟨b, e, word, utt2⟩ :: labs)

/-- Parse CTM intervals into the corresponding text for an utterance
(`parse_from_word` in `textgrid.py`): per original word, consume as many
aligned entries as the word has sub-token ids, merging matching entries'
bounds (initialised to the sentinels `b = 1000000`, `e = -1`). -/
def parse_from_word (ctm_labels : List CtmInterval) (text : List Str)
    (dictionary_data : DictionaryData) : Option (List CtmInterval) :=
  parseWordGo ctm_labels dictionary_data text none 0

/-- C1 counterexample: a word whose single consumed entry does not match its
expected id gets the sentinel bounds `begin = 1000000 > end = -1`, so the
claimed unconditional `begin ≤ end` (and span containment) fails. -/
theorem parse_from_word_sentinel_cex :
    parse_from_word [⟨0, 1, strL "7", some (strL "u")⟩] [strL "a"]
        ⟨[(strL "a", 3)], [], [], [], [], 0⟩ =
      some [⟨1000000, -1, strL "a", some (strL "u")⟩] ∧
    ¬ ((1000000 : ℚ) ≤ -1) := by
  exact ⟨by decide, by decide⟩

/-- Cursor start position of word `k`: total number of sub-token ids of the
preceding words. -/
def intsStart (dd : DictionaryData) (text : List Str) (k : ℕ) : ℕ :=
  ((text.take k).map (fun w => (wordInts dd w).length)).sum

/-- The aligned entries consumed for a word whose ids are `ints`, starting
at cursor `ind`. -/
def consumedSlice (ctm : List CtmInterval) (ints : List Int) (ind : ℕ) : List CtmInterval :=
  (ctm.drop ind).take ints.length

/-- The consumed entries whose parsed numeric label equals the expected id
at the same position. -/
def matchedSlice (ctm : List CtmInterval) (ints : List Int) (ind : ℕ) : List CtmInterval :=
  ((ints.zip (consumedSlice ctm ints ind)).filter
    (fun ic => decide (pyInt ic.2.label = some ic.1))).map (fun ic => ic.2)

/-- The running-minimum fold of `parse_from_word` over matched begins. -/
def minFold (b : ℚ) (M : List CtmInterval) : ℚ :=
  M.foldl (fun acc c => if c.begin < acc then c.begin else acc) b

/-- The running-maximum fold of `parse_from_word` over matched ends. -/
def maxFold (e : ℚ) (M : List CtmInterval) : ℚ :=
  M.foldl (fun acc c => if acc < c.«end» then c.«end» else acc) e

lemma matchedSlice_nil (ctm : List CtmInterval) (ind : ℕ) :
    matchedSlice ctm [] ind = [] := by
  simp [matchedSlice, consumedSlice]

lemma matchedSlice_cons (ctm : List CtmInterval) (i : Int) (rest : List Int) (ind : ℕ)
    (cur : CtmInterval) (hcur : ctm[ind]? = some cur) :
    matchedSlice ctm (i :: rest) ind =
      (if pyInt cur.label = some i then [cur] else []) ++ matchedSlice ctm rest (ind + 1) := by
  have hlt : ind < ctm.length := by
    rcases List.getElem?_eq_some.mp hcur with ⟨h, _⟩
    exact h
  have hget : ctm[ind] = cur := by
    rcases List.getElem?_eq_some.mp hcur with ⟨h, he⟩
    exact he
  have hdrop : ctm.drop ind = cur :: ctm.drop (ind + 1) := by
    rw [List.drop_eq_getElem_cons hlt, hget]
  simp only [matchedSlice, consumedSlice, List.length_cons, hdrop, List.take_succ_cons,
    List.zip_cons_cons, List.filter_cons]
  by_cases hm : pyInt cur.label = some i
  · simp [hm]
  · simp [hm]

lemma matchedSlice_subset (ctm : List CtmInterval) (ints : List Int) (ind : ℕ) :
    ∀ c ∈ matchedSlice ctm ints ind, c ∈ consumedSlice ctm ints ind := by
  intro c hc
  rcases List.mem_map.mp hc with ⟨ic, hic, he⟩
  rcases ic with ⟨a, b⟩
  have hz : (a, b) ∈ ints.zip (consumedSlice ctm ints ind) := (List.mem_filter.mp hic).1
  have hb : b ∈ consumedSlice ctm ints ind := (List.of_mem_zip hz).2
  have he' : b = c := he
  rwa [he'] at hb

lemma consumedSlice_subset (ctm : List CtmInterval) (ints : List Int) (ind : ℕ) :
    ∀ c ∈ consumedSlice ctm ints ind, c ∈ ctm := by
  intro c hc
  exact List.mem_of_mem_drop (List.mem_of_mem_take hc)

lemma minFold_le_init (M : List CtmInterval) : ∀ b : ℚ, minFold b M ≤ b := by
  induction M with
  | nil => intro b; simp [minFold]
  | cons c M' ih =>
    intro b
    have step : (if c.begin < b then c.begin else b) ≤ b := by
      split
      · exact le_of_lt (by assumption)
      · exact le_refl b
    exact le_trans (ih _) step

lemma minFold_le_mem (M : List CtmInterval) :
    ∀ (b : ℚ) (c : CtmInterval), c ∈ M → minFold b M ≤ c.begin := by
  induction M with
  | nil => intro b c hc; simp at hc
  | cons c0 M' ih =>
    intro b c hc
    rcases List.mem_cons.mp hc with h | h
    · subst h
      have step : (if c.begin < b then c.begin else b) ≤ c.begin := by
        split
        · exact le_refl _
        · exact le_of_not_lt (by assumption)
      exact le_trans (minFold_le_init M' _) step
    · exact ih _ c h

lemma minFold_eq_init_or_mem (M : List CtmInterval) :
    ∀ b : ℚ, minFold b M = b ∨ ∃ c ∈ M, minFold b M = c.begin := by
  induction M with
  | nil => intro b; left; rfl
  | cons c0 M' ih =>
    intro b
    have hfold : minFold b (c0 :: M') = minFold (if c0.begin < b then c0.begin else b) M' :=
      rfl
    rcases ih (if c0.begin < b then c0.begin else b) with h | ⟨c, hc, he⟩
    · rw [hfold, h]
      split
      · exact Or.inr ⟨c0, List.mem_cons_self c0 M', rfl⟩
      · exact Or.inl rfl
    · exact Or.inr ⟨c, List.mem_cons_of_mem c0 hc, hfold ▸ he⟩

lemma maxFold_ge_init (M : List CtmInterval) : ∀ e : ℚ, e ≤ maxFold e M := by
  induction M with
  | nil => intro e; simp [maxFold]
  | cons c M' ih =>
    intro e
    have step : e ≤ (if e < c.«end» then c.«end» else e) := by
      split
      · exact le_of_lt (by assumption)
      · exact le_refl e
    exact le_trans step (ih _)

lemma maxFold_ge_mem (M : List CtmInterval) :
    ∀ (e : ℚ) (c : CtmInterval), c ∈ M → c.«end» ≤ maxFold e M := by
  induction M with
  | nil => intro e c hc; simp at hc
  | cons c0 M' ih =>
    intro e c hc
    rcases List.mem_cons.mp hc with h | h
    · subst h
      have step : c.«end» ≤ (if e < c.«end» then c.«end» else e) := by
        split
        · exact le_refl _
        · exact le_of_not_lt (by assumption)
      exact le_trans step (maxFold_ge_init M' _)
    · exact ih _ c h

lemma maxFold_eq_init_or_mem (M : List CtmInterval) :
    ∀ e : ℚ, maxFold e M = e ∨ ∃ c ∈ M, maxFold e M = c.«end» := by
  induction M with
  | nil => intro e; left; rfl
  | cons c0 M' ih =>
    intro e
    have hfold : maxFold e (c0 :: M') = maxFold (if e < c0.«end» then c0.«end» else e) M' :=
      rfl
    rcases ih (if e < c0.«end» then c0.«end» else e) with h | ⟨c, hc, he⟩
    · rw [hfold, h]
      split
      · exact Or.inr ⟨c0, List.mem_cons_self c0 M', rfl⟩
      · exact Or.inl rfl
    · exact Or.inr ⟨c, List.mem_cons_of_mem c0 hc, hfold ▸ he⟩

/-- Characterisation of the inner loop of `parse_from_word`: on success the
cursor advances by the number of ids, and the bounds are the min/max folds
over exactly the matched entries. -/
lemma parseWordLoop_spec (ctm : List CtmInterval) :
    ∀ (ints : List Int) (b e : ℚ) (utt : Option Str) (ind : ℕ) (b' e' : ℚ)
      (utt' : Option Str) (ind' : ℕ),
      parseWordLoop ctm ints b e utt ind = some (b', e', utt', ind') →
      ind' = ind + ints.length ∧
      b' = minFold b (matchedSlice ctm ints ind) ∧
      e' = maxFold e (matchedSlice ctm ints ind) := by
  intro ints
  induction ints with
  | nil =>
    intro b e utt ind b' e' utt' ind' h
    rw [parseWordLoop] at h
    simp only [Option.some.injEq, Prod.mk.injEq] at h
    rcases h with ⟨hb, he, _, hind⟩
    rw [matchedSlice_nil]
    exact ⟨by simp only [List.length_nil]; omega, hb.symm, he.symm⟩
  | cons i rest ih =>
    intro b e utt ind b' e' utt' ind' h
    rw [parseWordLoop] at h
    cases hcur : ctm[ind]? with
    | none => rw [hcur] at h; simp at h
    | some cur =>
      rw [hcur] at h
      simp only at h
      cases hl : pyInt cur.label with
      | none => rw [hl] at h; simp at h
      | some l =>
        rw [hl] at h
        simp only at h
        rw [matchedSlice_cons ctm i rest ind cur hcur]
        by_cases hil : i = l
        · rw [if_pos hil] at h
          have heq : pyInt cur.label = some i := by rw [hl, hil]
          rw [if_pos heq]
          rcases ih _ _ _ _ _ _ _ _ h with ⟨hind, hb, he⟩
          refine ⟨by rw [hind]; simp only [List.length_cons]; omega, ?_, ?_⟩
          · rw [hb]; rfl
          · rw [he]; rfl
        · rw [if_neg hil] at h
          have heq : ¬ (pyInt cur.label = some i) := by
            rw [hl]
            simp only [Option.some.injEq]
            exact fun hh => hil hh.symm
          rw [if_neg heq]
          rcases ih _ _ _ _ _ _ _ _ h with ⟨hind, hb, he⟩
          refine ⟨by rw [hind]; simp only [List.length_cons]; omega, ?_, ?_⟩
          · simpa using hb
          · simpa using he

lemma intsStart_cons_succ (dd : DictionaryData) (w : Str) (t : List Str) (k : ℕ) :
    intsStart dd (w :: t) (k + 1) = (wordInts dd w).length + intsStart dd t k := by
  simp [intsStart, List.take_succ_cons]

/-- Per-word guarantee of `parse_from_word`: the output interval is labelled
by the word; with no matched entry it carries the sentinel bounds; with at
least one matched entry its bounds are attained min/max over the matched
entries, and in particular `begin ≤ end`. -/
def WordOut (ctm : List CtmInterval) (dd : DictionaryData) (start : ℕ) (w : Str)
    (o : CtmInterval) : Prop :=
  o.label = w ∧
  (matchedSlice ctm (wordInts dd w) start = [] →
      o.begin = 1000000 ∧ o.«end» = -1) ∧
  (matchedSlice ctm (wordInts dd w) start ≠ [] →
      o.begin ≤ o.«end» ∧
      (∀ c ∈ matchedSlice ctm (wordInts dd w) start,
        o.begin ≤ c.begin ∧ c.«end» ≤ o.«end») ∧
      (∃ c ∈ matchedSlice ctm (wordInts dd w) start, c.begin = o.begin) ∧
      (∃ c ∈ matchedSlice ctm (wordInts dd w) start, c.«end» = o.«end»))

lemma wordOut_of_fold (ctm : List CtmInterval)
    (hctm : ∀ c ∈ ctm, c.begin ≤ c.«end» ∧ c.begin < 1000000 ∧ (-1 : ℚ) < c.«end»)
    (dd : DictionaryData) (start : ℕ) (w : Str) (b e : ℚ)
    (hb : b = minFold 1000000 (matchedSlice ctm (wordInts dd w) start))
    (he : e = maxFold (-1) (matchedSlice ctm (wordInts dd w) start))
    (utt2 : Option Str) :
    WordOut ctm dd start w ⟨b, e, w, utt2⟩ := by
  have hsub : ∀ c ∈ matchedSlice ctm (wordInts dd w) start, c ∈ ctm := fun c hc =>
    consumedSlice_subset ctm _ start c (matchedSlice_subset ctm _ start c hc)
  refine ⟨rfl, ?_, ?_⟩
  · intro hMnil
    rw [hMnil] at hb he
    exact ⟨hb, he⟩
  · intro hMne
    have hminmem : ∃ c ∈ matchedSlice ctm (wordInts dd w) start, b = c.begin := by
      rcases minFold_eq_init_or_mem (matchedSlice ctm (wordInts dd w) start) 1000000 with
        h0 | ⟨c, hc, hce⟩
      · exfalso
        rcases List.exists_mem_of_ne_nil _ hMne with ⟨c0, hc0⟩
        have h1 := minFold_le_mem (matchedSlice ctm (wordInts dd w) start) 1000000 c0 hc0
        have h2 := (hctm c0 (hsub c0 hc0)).2.1
        rw [h0] at h1
        exact absurd h2 (not_lt.mpr h1)
      · exact ⟨c, hc, by rw [hb, hce]⟩
    have hmaxmem : ∃ c ∈ matchedSlice ctm (wordInts dd w) start, e = c.«end» := by
      rcases maxFold_eq_init_or_mem (matchedSlice ctm (wordInts dd w) start) (-1) with
        h0 | ⟨c, hc, hce⟩
      · exfalso
        rcases List.exists_mem_of_ne_nil _ hMne with ⟨c0, hc0⟩
        have h1 := maxFold_ge_mem (matchedSlice ctm (wordInts dd w) start) (-1) c0 hc0
        have h2 := (hctm c0 (hsub c0 hc0)).2.2
        rw [h0] at h1
        exact absurd h2 (not_lt.mpr h1)
      · exact ⟨c, hc, by rw [he, hce]⟩
    have hboundmem : ∀ c ∈ matchedSlice ctm (wordInts dd w) start,
        b ≤ c.begin ∧ c.«end» ≤ e := by
      intro c hc
      constructor
      · rw [hb]; exact minFold_le_mem _ _ c hc
      · rw [he]; exact maxFold_ge_mem _ _ c hc
    rcases hminmem with ⟨cb, hcb, hbe⟩
    rcases hmaxmem with ⟨ce, hce, hee⟩
    refine ⟨?_, hboundmem, ⟨cb, hcb, hbe.symm⟩, ⟨ce, hce, hee.symm⟩⟩
    calc b = cb.begin := hbe
      _ ≤ cb.«end» := (hctm cb (hsub cb hcb)).1
      _ ≤ e := (hboundmem cb hcb).2

/-- Characterisation of `parseWordGo`: on success it returns one interval
per remaining word, and each satisfies `WordOut` at its cursor start. -/
lemma parseWordGo_spec (ctm : List CtmInterval) (dd : DictionaryData)
    (hctm : ∀ c ∈ ctm, c.begin ≤ c.«end» ∧ c.begin < 1000000 ∧ (-1 : ℚ) < c.«end») :
    ∀ (text : List Str) (utt : Option Str) (ind : ℕ) (out : List CtmInterval),
      parseWordGo ctm dd text utt ind = some out →
      out.length = text.length ∧
      ∀ (k : ℕ) (w : Str) (o : CtmInterval), text[k]? = some w → out[k]? = some o →
        WordOut ctm dd (ind + intsStart dd text k) w o := by
  intro text
  induction text with
  | nil =>
    intro utt ind out h
    rw [parseWordGo] at h
    simp only [Option.some.injEq] at h
    subst h
    exact ⟨rfl, fun k w o hw _ => by simp at hw⟩
  | cons word rest ih =>
    intro utt ind out h
    simp only [parseWordGo] at h
    cases hloop : parseWordLoop ctm (wordInts dd word) 1000000 (-1) utt ind with
    | none => rw [hloop] at h; simp at h
    | some q =>
      rw [hloop] at h
      rcases q with ⟨b, e, utt2, ind2⟩
      simp only at h
      cases hgo : parseWordGo ctm dd rest utt2 ind2 with
      | none => rw [hgo] at h; simp at h
      | some labs =>
        rw [hgo] at h
        simp only [Option.some.injEq] at h
        subst h
        rcases parseWordLoop_spec ctm _ _ _ _ _ _ _ _ _ hloop with ⟨hind2, hb, he⟩
        rcases ih utt2 ind2 labs hgo with ⟨hlen, hprop⟩
        constructor
        · simp [hlen]
        · intro k w o hw ho
          cases k with
          | zero =>
            simp only [List.getElem?_cons_zero, Option.some.injEq] at hw ho
            subst hw
            subst ho
            have h0 : intsStart dd (word :: rest) 0 = 0 := by simp [intsStart]
            rw [h0, Nat.add_zero]
            exact wordOut_of_fold ctm hctm dd ind word b e hb he utt2
          | succ k =>
            simp only [List.getElem?_cons_succ] at hw ho
            have hres := hprop k w o hw ho
            have harith : ind + intsStart dd (word :: rest) (k + 1) =
                ind2 + intsStart dd rest k := by
              rw [hind2, intsStart_cons_succ]
              omega
            rw [harith]
            exact hres

/-- C1 (amended): assume every aligned interval satisfies `begin ≤ end`,
`begin < 1000000` and `end > -1` (the sentinel initialisers of
`parse_from_word`).  Then a successful `parse_from_word` returns one
interval per original word, labelled by it.  A word with at least one
consumed entry matching its expected id satisfies `begin ≤ end`, its bounds
are the attained min/max over exactly the matched entries (mismatched
entries are consumed but never contribute), so `[begin, end]` lies within
the hull of the spans of the entries consumed for that word.  A word with
no matching consumed entry gets the sentinel bounds `(1000000, -1)` — the
claim's unconditional `begin ≤ end` and its span containment fail there
(the known zero-match edge case). -/
theorem parse_from_word_bounds (ctm_labels : List CtmInterval) (text : List Str)
    (dd : DictionaryData) (out : List CtmInterval)
    (hctm : ∀ c ∈ ctm_labels,
      c.begin ≤ c.«end» ∧ c.begin < 1000000 ∧ (-1 : ℚ) < c.«end»)
    (h : parse_from_word ctm_labels text dd = some out) :
    out.length = text.length ∧
    ∀ (k : ℕ) (w : Str) (o : CtmInterval), text[k]? = some w → out[k]? = some o →
      WordOut ctm_labels dd (intsStart dd text k) w o ∧
      ∀ c ∈ matchedSlice ctm_labels (wordInts dd w) (intsStart dd text k),
        c ∈ consumedSlice ctm_labels (wordInts dd w) (intsStart dd text k) := by
  rcases parseWordGo_spec ctm_labels dd hctm text none 0 out h with ⟨hlen, hprop⟩
  refine ⟨hlen, fun k w o hw ho => ⟨?_, matchedSlice_subset _ _ _⟩⟩
  have hres := hprop k w o hw ho
  rwa [Nat.zero_add] at hres

/-- C1 witness: a one-word call whose single entry matches its id; the
amended theorem yields the `WordOut` guarantee at the concrete input. -/
theorem parse_from_word_bounds_witness :
    WordOut [⟨0, 1, strL "3", some (strL "u")⟩] ⟨[(strL "a", 3)], [], [], [], [], 0⟩
      (intsStart ⟨[(strL "a", 3)], [], [], [], [], 0⟩ [strL "a"] 0) (strL "a")
      ⟨0, 1, strL "a", some (strL "u")⟩ := by
  have h := parse_from_word_bounds [⟨0, 1, strL "3", some (strL "u")⟩] [strL "a"]
    ⟨[(strL "a", 3)], [], [], [], [], 0⟩ [⟨0, 1, strL "a", some (strL "u")⟩]
    (by decide) (by decide)
  exact (h.2 0 (strL "a") ⟨0, 1, strL "a", some (strL "u")⟩ (by decide) (by decide)).1

/-- A lexicon pronunciation entry (the spec's tagged view of the loosely
typed dict entries consumed by `map_to_original_pronunciation`):
`pronunciation` is always present, `original_pronunciation` optional. -/
structure PronEntry where
  pronunciation : List Str
  original_pronunciation : Option (List Str)
deriving DecidableEq

/-- Fuel-indexed model of Python `s.replace(pat, "")` (left-to-right,
non-overlapping).  A fuel of `s.length` suffices since each step consumes at
least one character when `pat` is nonempty. -/
def removeOccsFuel (pat : List Char) : ℕ → List Char → List Char
  | 0, l => l
  | fuel + 1, l =>
    match l with
    | [] => []
    | c :: rest =>
      if pat ≠ [] ∧ pat.isPrefixOf (c :: rest) then
        removeOccsFuel pat fuel ((c :: rest).drop pat.length)
      else c :: removeOccsFuel pat fuel rest

/-- Model of Python `s.replace(pat, "")`. -/
def pyRemoveAll (s pat : List Char) : List Char := removeOccsFuel pat s.length s

/-- Strip all configured diacritics from a phone, in order
(`modded_phone.replace(diacritic, "")` for each diacritic). -/
def stripAll (strip_diacritics : List Str) (p : Str) : Str :=
  strip_diacritics.foldl (fun acc d => pyRemoveAll acc d) p

/-- First candidate test of `map_to_original_pronunciation`: whole-sequence
match of the aligned transcription against the entry (with no original
pronunciation, or an original equal to the simplified one). -/
def wholeMatch (transcription : List Str) (p : PronEntry) : Bool :=
  match p.original_pronunciation with
  | some orig => transcription == p.pronunciation && p.pronunciation == orig
  | none => transcription == p.pronunciation

/-- Second candidate test: the entry's pronunciation equals the slice of the
transcription starting at `ti` (Python
`p["pronunciation"] == transcription[ti : ti + len(p["pronunciation"])]`). -/
def matchesAt (transcription : List Str) (ti : ℕ) (p : PronEntry) : Bool :=
  p.pronunciation == (transcription.drop ti).take p.pronunciation.length

/-- Candidate scan of `map_to_original_pronunciation`: stop at the first
whole-sequence match (`.1 = true`); otherwise record the first entry whose
pronunciation matches at the cursor. -/
def scanEntries (transcription : List Str) (ti : ℕ) :
    Option PronEntry → List PronEntry → Bool × Option PronEntry
  | pron, [] => (false, pron)
  | pron, p :: rest =>
    if wholeMatch transcription p then (true, pron)
    else
      scanEntries transcription ti
        (if matchesAt transcription ti p && pron.isNone then some p else pron) rest

/-- Phone-by-phone walk of a selected entry's original pronunciation
against the aligned phones: keep equal phones, relabel when stripping
diacritics recovers the aligned label (in-place, modelled by `List.set`),
merge two adjacent aligned phones when stripping recovers their
concatenation, and silently skip (drop the frame) otherwise.  `none` models
the `IndexError` when the walk outruns the aligned phones. -/
def walkOriginal (strip_diacritics : List Str) :
    List Str → List CtmInterval → ℕ → List CtmInterval →
      Option (List CtmInterval × List CtmInterval × ℕ)
  | [], phonesCur, mi, acc => some (acc, phonesCur, mi)
  | pi :: rest, phonesCur, mi, acc =>
    match phonesCur[mi]? with
    | none => none
    | some cur =>
      if pi = cur.label then
        walkOriginal strip_diacritics rest phonesCur (mi + 1) (acc ++ [cur])
      else
        let modded := stripAll strip_diacritics pi
        if modded = cur.label then
          let cur' : CtmInterval := ⟨cur.begin, cur.«end», pi, cur.utterance⟩
          walkOriginal strip_diacritics rest (phonesCur.set mi cur') (mi + 1) (acc ++ [cur'])
        else if mi ≠ phonesCur.length - 1 then
          match phonesCur[mi + 1]? with
          | none => none
          | some nxt =>
            if modded = cur.label ++ nxt.label then
              walkOriginal strip_diacritics rest phonesCur (mi + 2)
                (acc ++ [⟨cur.begin, nxt.«end», cur.label ++ nxt.label, cur.utterance⟩])
            else walkOriginal strip_diacritics rest phonesCur (mi + 1) acc
        else walkOriginal strip_diacritics rest phonesCur (mi + 1) acc

/-- Outer loop of `map_to_original_pronunciation` over the sub-word
pronunciation candidate lists, threading the (possibly relabelled) aligned
phones, the phone cursor `mi`, the transcription cursor `ti` and the output
accumulator. -/
def mapOuter (transcription : List Str) (strip_diacritics : List Str) :
    List (List PronEntry) → List CtmInterval → ℕ → ℕ → List CtmInterval →
      Option (List CtmInterval)
  | [], _, _, _, acc => some acc
  | prons :: rest, phonesCur, mi, ti, acc =>
    if mi ≥ phonesCur.length then some acc
    else
      match scanEntries transcription ti none prons with
      | (true, _) => some (acc ++ phonesCur)
      | (false, none) => some (acc ++ phonesCur)
      | (false, some p) =>
        let to_extend := (phonesCur.drop ti).take p.pronunciation.length
        match p.original_pronunciation with
        | none => some (acc ++ to_extend)
        | some orig =>
          if p.pronunciation = orig then some (acc ++ to_extend)
          else
            match walkOriginal strip_diacritics orig phonesCur mi acc with
            | none => none
            | some (acc2, phonesCur2, mi2) =>
              mapOuter transcription strip_diacritics rest phonesCur2 mi2
                (ti + p.pronunciation.length) acc2

/-- Convert phone transcriptions from multilingual IPA mode to their
original IPA transcription (`map_to_original_pronunciation` in
`textgrid.py`).  `none` models the `IndexError` raised when a selected
original pronunciation outruns the remaining aligned phones. -/
def map_to_original_pronunciation (phones : List CtmInterval)
    (subpronunciations : List (List PronEntry)) (strip_diacritics : List Str) :
    Option (List CtmInterval) :=
  mapOuter (phones.map (fun x => x.label)) strip_diacritics subpronunciations phones 0 0 []

/-- C2 counterexample: a candidate entry whose original pronunciation has
more phones than remain in the aligned stream makes
`map_to_original_pronunciation` raise an `IndexError` (modelled as `none`),
so the function does not always return normally. -/
theorem map_to_original_raises_cex :
    map_to_original_pronunciation [⟨0, 1, strL "a", some (strL "u")⟩]
      [[⟨[strL "a"], some [strL "x", strL "y"]⟩]] [] = none := by decide

/-- If no entry of a candidate list whole-matches or prefix-matches, the
scan returns `(false, pron)` unchanged. -/
lemma scanEntries_none (transcription : List Str) (ti : ℕ) :
    ∀ (l : List PronEntry) (pron : Option PronEntry),
      (∀ p ∈ l, wholeMatch transcription p = false ∧ matchesAt transcription ti p = false) →
      scanEntries transcription ti pron l = (false, pron) := by
  intro l
  induction l with
  | nil => intro pron _; rfl
  | cons p l' ih =>
    intro pron hno
    rw [scanEntries]
    rcases hno p (List.mem_cons_self p l') with ⟨hw, hm⟩
    rw [hw]
    simp only [Bool.false_eq_true, if_false, hm, Bool.false_and]
    exact ih pron (fun q hq => hno q (List.mem_cons_of_mem p hq))

/-- C2 (amended): when no candidate entry of the first sub-word matches
(neither the whole-sequence test nor the positional test),
`map_to_original_pronunciation` returns normally and passes the aligned
intervals through unchanged, dropping no frame.  (The unconditional claim
fails: the walk over a selected original pronunciation can overrun the
aligned stream and raise `IndexError` — see the counterexample — and its
unmatched-phone branch silently drops frames.) -/
theorem map_to_original_passthrough (phones : List CtmInterval)
    (prons0 : List PronEntry) (rest : List (List PronEntry)) (strip_diacritics : List Str)
    (hno : ∀ p ∈ prons0,
      wholeMatch (phones.map (fun x => x.label)) p = false ∧
      matchesAt (phones.map (fun x => x.label)) 0 p = false) :
    map_to_original_pronunciation phones (prons0 :: rest) strip_diacritics = some phones := by
  rw [map_to_original_pronunciation, mapOuter]
  cases phones with
  | nil => simp
  | cons c cs =>
    rw [if_neg (by simp)]
    rw [scanEntries_none _ _ prons0 none hno]
    simp

/-- C2 witness: one aligned phone whose single candidate entry matches
nothing — the aligned intervals pass through unchanged. -/
theorem map_to_original_passthrough_witness :
    map_to_original_pronunciation [⟨0, 1, strL "a", some (strL "u")⟩]
        [[⟨[strL "b"], none⟩]] [] =
      some [⟨0, 1, strL "a", some (strL "u")⟩] := by
  exact map_to_original_passthrough [⟨0, 1, strL "a", some (strL "u")⟩]
    [⟨[strL "b"], none⟩] [] [] (by decide)

/-- An output interval: a relabelling of an aligned interval — same times
and utterance, and stripping all configured diacritics from the new label
recovers the aligned label it replaced. -/
def RelabelOf (strip_diacritics : List Str) (phones : List CtmInterval)
    (o : CtmInterval) : Prop :=
  ∃ c ∈ phones, o.begin = c.begin ∧ o.«end» = c.«end» ∧ o.utterance = c.utterance ∧
    stripAll strip_diacritics o.label = c.label

/-- An output interval: a merge of two aligned intervals — spanning from the
first's begin to the second's end, labelled by the concatenation of their
labels. -/
def MergedOf (phones : List CtmInterval) (o : CtmInterval) : Prop :=
  ∃ c1 ∈ phones, ∃ c2 ∈ phones,
    o.begin = c1.begin ∧ o.«end» = c2.«end» ∧ o.label = c1.label ++ c2.label ∧
    o.utterance = c1.utterance

/-- Every interval emitted by `map_to_original_pronunciation` is an aligned
interval passed through unchanged, a relabelling with the diacritic-strip
property, or a merge of two aligned intervals. -/
def PhoneOut (strip_diacritics : List Str) (phones : List CtmInterval)
    (o : CtmInterval) : Prop :=
  o ∈ phones ∨ RelabelOf strip_diacritics phones o ∨ MergedOf phones o

/-- Invariant of the evolving phone buffer: every element is an original
aligned interval or an in-place relabelling of one. -/
def GoodCur (strip_diacritics : List Str) (phones : List CtmInterval)
    (c : CtmInterval) : Prop :=
  c ∈ phones ∨ RelabelOf strip_diacritics phones c

lemma goodCur_phoneOut (strip_diacritics : List Str) (phones : List CtmInterval)
    (c : CtmInterval) (h : GoodCur strip_diacritics phones c) :
    PhoneOut strip_diacritics phones c := by
  rcases h with h | h
  · exact Or.inl h
  · exact Or.inr (Or.inl h)

/-- Invariant preservation through the original-pronunciation walk: ahead of
the cursor the buffer agrees with the aligned input, the buffer stays good,
and every accumulated output is a pass-through, relabel or merge. -/
lemma walkOriginal_spec (strip_diacritics : List Str) (phones : List CtmInterval) :
    ∀ (orig : List Str) (phonesCur : List CtmInterval) (mi : ℕ)
      (acc acc2 phonesCur2 : List CtmInterval) (mi2 : ℕ),
      walkOriginal strip_diacritics orig phonesCur mi acc = some (acc2, phonesCur2, mi2) →
      (∀ i, mi ≤ i → phonesCur[i]? = phones[i]?) →
      (∀ c ∈ phonesCur, GoodCur strip_diacritics phones c) →
      (∀ o ∈ acc, PhoneOut strip_diacritics phones o) →
      (∀ i, mi2 ≤ i → phonesCur2[i]? = phones[i]?) ∧
      (∀ c ∈ phonesCur2, GoodCur strip_diacritics phones c) ∧
      (∀ o ∈ acc2, PhoneOut strip_diacritics phones o) := by
  intro orig
  induction orig with
  | nil =>
    intro phonesCur mi acc acc2 phonesCur2 mi2 h h1 h2 h3
    rw [walkOriginal] at h
    simp only [Option.some.injEq, Prod.mk.injEq] at h
    rcases h with ⟨ha, hp, hm⟩
    subst ha; subst hp; subst hm
    exact ⟨h1, h2, h3⟩
  | cons pi rest ih =>
    intro phonesCur mi acc acc2 phonesCur2 mi2 h h1 h2 h3
    rw [walkOriginal] at h
    cases hcur : phonesCur[mi]? with
    | none => rw [hcur] at h; simp at h
    | some cur =>
      rw [hcur] at h
      simp only at h
      have hcurmem : cur ∈ phones := by
        have := h1 mi (le_refl mi)
        rw [hcur] at this
        rcases List.getElem?_eq_some.mp this.symm with ⟨hlt, hget⟩
        exact hget ▸ List.getElem_mem hlt
      by_cases heq : pi = cur.label
      · rw [if_pos heq] at h
        refine ih phonesCur (mi + 1) (acc ++ [cur]) acc2 phonesCur2 mi2 h
          (fun i hi => h1 i (by omega)) h2 ?_
        intro o ho
        rcases List.mem_append.mp ho with ho | ho
        · exact h3 o ho
        · rw [List.mem_singleton.mp ho]
          exact Or.inl hcurmem
      · rw [if_neg heq] at h
        by_cases hmod : stripAll strip_diacritics pi = cur.label
        · rw [if_pos hmod] at h
          have hgood' : GoodCur strip_diacritics phones
              ⟨cur.begin, cur.«end», pi, cur.utterance⟩ :=
            Or.inr ⟨cur, hcurmem, rfl, rfl, rfl, hmod⟩
          refine ih _ (mi + 1) _ acc2 phonesCur2 mi2 h ?_ ?_ ?_
          · intro i hi
            rw [List.getElem?_set_ne (by omega)]
            exact h1 i (by omega)
          · intro c hc
            rcases List.mem_or_eq_of_mem_set hc with hc | hc
            · exact h2 c hc
            · rw [hc]; exact hgood'
          · intro o ho
            rcases List.mem_append.mp ho with ho | ho
            · exact h3 o ho
            · rw [List.mem_singleton.mp ho]
              exact goodCur_phoneOut _ _ _ hgood'
        · rw [if_neg hmod] at h
          by_cases hlast : mi ≠ phonesCur.length - 1
          · rw [if_pos hlast] at h
            cases hnxt : phonesCur[mi + 1]? with
            | none => rw [hnxt] at h; simp at h
            | some nxt =>
              rw [hnxt] at h
              simp only at h
              have hnxtmem : nxt ∈ phones := by
                have := h1 (mi + 1) (by omega)
                rw [hnxt] at this
                rcases List.getElem?_eq_some.mp this.symm with ⟨hlt, hget⟩
                exact hget ▸ List.getElem_mem hlt
              by_cases hmerge : stripAll strip_diacritics pi = cur.label ++ nxt.label
              · rw [if_pos hmerge] at h
                refine ih phonesCur (mi + 2) _ acc2 phonesCur2 mi2 h
                  (fun i hi => h1 i (by omega)) h2 ?_
                intro o ho
                rcases List.mem_append.mp ho with ho | ho
                · exact h3 o ho
                · rw [List.mem_singleton.mp ho]
                  exact Or.inr (Or.inr ⟨cur, hcurmem, nxt, hnxtmem, rfl, rfl, rfl, rfl⟩)
              · rw [if_neg hmerge] at h
                exact ih phonesCur (mi + 1) acc acc2 phonesCur2 mi2 h
                  (fun i hi => h1 i (by omega)) h2 h3
          · rw [if_neg hlast] at h
            exact ih phonesCur (mi + 1) acc acc2 phonesCur2 mi2 h
              (fun i hi => h1 i (by omega)) h2 h3

/-- Invariant propagation through the outer loop of
`map_to_original_pronunciation`: every returned interval is a pass-through,
relabel or merge of the aligned input. -/
lemma mapOuter_spec (transcription : List Str) (strip_diacritics : List Str)
    (phones : List CtmInterval) :
    ∀ (subs : List (List PronEntry)) (phonesCur : List CtmInterval) (mi ti : ℕ)
      (acc out : List CtmInterval),
      mapOuter transcription strip_diacritics subs phonesCur mi ti acc = some out →
      (∀ i, mi ≤ i → phonesCur[i]? = phones[i]?) →
      (∀ c ∈ phonesCur, GoodCur strip_diacritics phones c) →
      (∀ o ∈ acc, PhoneOut strip_diacritics phones o) →
      ∀ o ∈ out, PhoneOut strip_diacritics phones o := by
  intro subs
  induction subs with
  | nil =>
    intro phonesCur mi ti acc out h _ _ h3
    rw [mapOuter] at h
    simp only [Option.some.injEq] at h
    subst h
    exact h3
  | cons prons rest ih =>
    intro phonesCur mi ti acc out h h1 h2 h3
    rw [mapOuter] at h
    have hout_append : ∀ (l : List CtmInterval), (∀ c ∈ l, GoodCur strip_diacritics phones c) →
        some (acc ++ l) = some out → ∀ o ∈ out, PhoneOut strip_diacritics phones o := by
      intro l hl he o ho
      have : acc ++ l = out := Option.some.inj he
      rw [← this] at ho
      rcases List.mem_append.mp ho with ho | ho
      · exact h3 o ho
      · exact goodCur_phoneOut _ _ _ (hl o ho)
    by_cases hguard : mi ≥ phonesCur.length
    · rw [if_pos hguard] at h
      intro o ho
      have : acc = out := Option.some.inj h
      rw [← this] at ho
      exact h3 o ho
    · rw [if_neg hguard] at h
      cases hscan : scanEntries transcription ti none prons with
      | mk whole pron =>
        rw [hscan] at h
        cases whole with
        | true =>
          simp only at h
          exact hout_append phonesCur h2 h
        | false =>
          cases pron with
          | none =>
            simp only at h
            exact hout_append phonesCur h2 h
          | some p =>
            simp only at h
            have hto : ∀ c ∈ (phonesCur.drop ti).take p.pronunciation.length,
                GoodCur strip_diacritics phones c := by
              intro c hc
              exact h2 c (List.mem_of_mem_drop (List.mem_of_mem_take hc))
            cases horig : p.original_pronunciation with
            | none =>
              rw [horig] at h
              simp only at h
              exact hout_append _ hto h
            | some orig =>
              rw [horig] at h
              simp only at h
              by_cases hsame : p.pronunciation = orig
              · rw [if_pos hsame] at h
                exact hout_append _ hto h
              · rw [if_neg hsame] at h
                cases hwalk : walkOriginal strip_diacritics orig phonesCur mi acc with
                | none => rw [hwalk] at h; simp at h
                | some q =>
                  rw [hwalk] at h
                  rcases q with ⟨acc2, phonesCur2, mi2⟩
                  simp only at h
                  rcases walkOriginal_spec strip_diacritics phones orig phonesCur mi acc
                    acc2 phonesCur2 mi2 hwalk h1 h2 h3 with ⟨h1', h2', h3'⟩
                  exact ih phonesCur2 mi2 (ti + p.pronunciation.length) acc2 out h h1' h2' h3'

/-- C9: every interval returned by `map_to_original_pronunciation` is an
aligned interval passed through unchanged, a relabelled aligned interval —
same times and utterance, with stripping all configured diacritics from the
new original-pronunciation label recovering exactly the simplified aligned
label it carried before — or a merge of two aligned intervals (labelled by
their concatenation, not a relabelling). -/
theorem map_to_original_relabel_strip (phones : List CtmInterval)
    (subpronunciations : List (List PronEntry)) (strip_diacritics : List Str)
    (out : List CtmInterval)
    (h : map_to_original_pronunciation phones subpronunciations strip_diacritics =
      some out) :
    ∀ o ∈ out, PhoneOut strip_diacritics phones o := by
  rw [map_to_original_pronunciation] at h
  refine mapOuter_spec (phones.map (fun x => x.label)) strip_diacritics phones
    subpronunciations phones 0 0 [] out h (fun i _ => rfl) (fun c hc => Or.inl hc) ?_
  intro o ho
  simp at ho

/-- C9 witness: a concrete call where the aligned phone `"a"` is relabelled
to the original `"a!"`; the output satisfies the strip property. -/
theorem map_to_original_relabel_strip_witness :
    PhoneOut [strL "!"] [⟨0, 1, strL "a", some (strL "u")⟩]
      ⟨0, 1, strL "a!", some (strL "u")⟩ := by
  have h := map_to_original_relabel_strip [⟨0, 1, strL "a", some (strL "u")⟩]
    [[⟨[strL "a"], some [strL "a!"]⟩]] [strL "!"]
    [⟨0, 1, strL "a!", some (strL "u")⟩] (by decide)
  exact h ⟨0, 1, strL "a!", some (strL "u")⟩ (by decide)

/-- Per-speaker tier data handed to `export_textgrid` (one entry of the
`speaker_data` dict, in insertion order). -/
structure SpeakerData where
  speaker : Str
  words : List CtmInterval
  phones : List CtmInterval
deriving DecidableEq

/-- The frame-shift normalisation at the top of `export_textgrid`:
`if frame_shift > 1: frame_shift = round(frame_shift / 1000, 4)` —
a value above 1 is interpreted as milliseconds. -/
def effectiveFrameShift (frame_shift : ℚ) : ℚ :=
  if 1 < frame_shift then round4 (frame_shift / 1000) else frame_shift

/-- The per-interval boundary fix of `export_textgrid`:
`if file.duration - w.end < frame_shift: w.end = file.duration`. -/
def snapInterval (duration fs : ℚ) (c : CtmInterval) : CtmInterval :=
  if duration - c.«end» < fs then ⟨c.begin, duration, c.label, c.utterance⟩ else c

/-- Computational core of `export_textgrid` in `textgrid.py`: normalise the
frame shift, then overwrite in place the `end` of every word and phone
interval lying within one frame shift of the file duration.  The praatio
tier construction and file write are external I/O; the returned list is the
post-state of `speaker_data` (whose intervals are exactly the ones
serialized into the word/phone tiers). -/
def export_textgrid (duration : ℚ) (frame_shift : ℚ)
    (speaker_data : List SpeakerData) : List SpeakerData :=
  let fs := effectiveFrameShift frame_shift
  speaker_data.map (fun d =>
    ⟨d.speaker, d.words.map (snapInterval duration fs),
      d.phones.map (snapInterval duration fs)⟩)

/-- C4: a `frame_shift` greater than 1 is interpreted as milliseconds —
divided by 1000 and rounded to 4 decimals — and otherwise taken as seconds;
and after export every word and phone interval whose end lies within one
(normalised) frame shift of the file duration has its end exactly equal to
the file duration. -/
theorem export_textgrid_snaps (duration frame_shift : ℚ) (sd : List SpeakerData) :
    ((1 < frame_shift →
        effectiveFrameShift frame_shift = round4 (frame_shift / 1000)) ∧
      (¬ 1 < frame_shift → effectiveFrameShift frame_shift = frame_shift)) ∧
    ∀ d ∈ export_textgrid duration frame_shift sd, ∀ o : CtmInterval,
      (o ∈ d.words ∨ o ∈ d.phones) →
      duration - o.«end» < effectiveFrameShift frame_shift →
      o.«end» = duration := by
  refine ⟨⟨fun h => by rw [effectiveFrameShift, if_pos h],
    fun h => by rw [effectiveFrameShift, if_neg h]⟩, ?_⟩
  intro d hd o ho hnear
  rcases List.mem_map.mp hd with ⟨d0, _, hmap⟩
  have homem : ∃ w : CtmInterval,
      o = snapInterval duration (effectiveFrameShift frame_shift) w := by
    rcases ho with ho | ho
    · rw [← hmap] at ho
      rcases List.mem_map.mp ho with ⟨w, _, hw⟩
      exact ⟨w, hw.symm⟩
    · rw [← hmap] at ho
      rcases List.mem_map.mp ho with ⟨w, _, hw⟩
      exact ⟨w, hw.symm⟩
  rcases homem with ⟨w, hw⟩
  rw [snapInterval] at hw
  by_cases hcond : duration - w.«end» < effectiveFrameShift frame_shift
  · rw [if_pos hcond] at hw
    rw [hw]
  · rw [if_neg hcond] at hw
    rw [hw] at hnear
    exact absurd hnear hcond

/-- C4 witness: duration 1, frame shift 10 ms (normalised to 0.01 s); a word
interval ending at 0.995 is within one frame shift, and after export its end
equals the duration. -/
theorem export_textgrid_snaps_witness :
    (⟨strL "s", [⟨0, 1, strL "w", none⟩], []⟩ : SpeakerData) ∈
      export_textgrid 1 10 [⟨strL "s", [⟨0, 199 / 200, strL "w", none⟩], []⟩] ∧
    (⟨0, (1 : ℚ), strL "w", none⟩ : CtmInterval).«end» = 1 := by
  have hfs : effectiveFrameShift 10 = 1 / 100 := by
    rw [effectiveFrameShift, if_pos (by norm_num)]
    rw [round4_exact (10 / 1000) 100 (by norm_num)]
    norm_num
  have hsnap : snapInterval 1 (effectiveFrameShift 10) ⟨0, 199 / 200, strL "w", none⟩ =
      ⟨0, 1, strL "w", none⟩ := by
    rw [snapInterval, if_pos (by rw [hfs]; norm_num)]
  have hmem : (⟨strL "s", [⟨0, 1, strL "w", none⟩], []⟩ : SpeakerData) ∈
      export_textgrid 1 10 [⟨strL "s", [⟨0, 199 / 200, strL "w", none⟩], []⟩] := by
    rw [export_textgrid]
    simp only [List.map_cons, List.map_nil, hsnap]
    exact List.mem_singleton.mpr rfl
  refine ⟨hmem, ?_⟩
  exact (export_textgrid_snaps 1 10 [⟨strL "s", [⟨0, 199 / 200, strL "w", none⟩], []⟩]).2
    _ hmem _ (Or.inl (List.mem_singleton.mpr rfl)) (by rw [hfs]; norm_num)

/-- C10: `export_textgrid` rewrites the caller's `speaker_data` in place —
for every entry, every word/phone interval keeps its `begin`, `label` and
`utterance`, while its `end` is overwritten with the file duration exactly
when it lies within one (normalised) frame shift of the duration; the
speaker key is untouched. -/
theorem export_textgrid_pointwise (duration frame_shift : ℚ) (sd : List SpeakerData)
    (j : ℕ) (d : SpeakerData) (hj : sd[j]? = some d) :
    (export_textgrid duration frame_shift sd)[j]? =
      some ⟨d.speaker,
        d.words.map (fun w => ⟨w.begin,
          if duration - w.«end» < effectiveFrameShift frame_shift then duration
          else w.«end», w.label, w.utterance⟩),
        d.phones.map (fun p => ⟨p.begin,
          if duration - p.«end» < effectiveFrameShift frame_shift then duration
          else p.«end», p.label, p.utterance⟩)⟩ := by
  have hsnap_eq : snapInterval duration (effectiveFrameShift frame_shift) =
      fun w : CtmInterval => (⟨w.begin,
        if duration - w.«end» < effectiveFrameShift frame_shift then duration
        else w.«end», w.label, w.utterance⟩ : CtmInterval) := by
    funext w
    rw [snapInterval]
    by_cases hc : duration - w.«end» < effectiveFrameShift frame_shift
    · rw [if_pos hc, if_pos hc]
    · rw [if_neg hc, if_neg hc]
  simp only [export_textgrid, hsnap_eq, List.getElem?_map, hj, Option.map_some']

/-- C10 witness: one speaker with one word interval ending within a frame
shift of the duration; after export the entry carries the snapped end and
unchanged begin/label/utterance. -/
theorem export_textgrid_pointwise_witness :
    (export_textgrid 1 10 [⟨strL "s", [⟨0, 199 / 200, strL "w", none⟩], []⟩])[0]? =
      some ⟨strL "s", [⟨0, 1, strL "w", none⟩], []⟩ := by
  have h := export_textgrid_pointwise 1 10
    [⟨strL "s", [⟨0, 199 / 200, strL "w", none⟩], []⟩] 0
    ⟨strL "s", [⟨0, 199 / 200, strL "w", none⟩], []⟩ rfl
  rw [h]
  have hfs : effectiveFrameShift 10 = 1 / 100 := by
    rw [effectiveFrameShift, if_pos (by norm_num)]
    rw [round4_exact (10 / 1000) 100 (by norm_num)]
    norm_num
  simp only [List.map_cons, List.map_nil]
  rw [if_pos (show (1 : ℚ) - 199 / 200 < effectiveFrameShift 10 by rw [hfs]; norm_num)]

/-- Python dict assignment `d[k] = v`: overwrite an existing binding in
place, else append a new binding (insertion order). -/
def dictSet (d : List (Str × Str)) (k v : Str) : List (Str × Str) :=
  if d.any (fun kv => kv.1 == k) then
    d.map (fun kv => if kv.1 == k then (k, v) else kv)
  else d ++ [(k, v)]

/-- Batch loop of `ctms_to_textgrids_non_mp` in `textgrid.py`, restricted to
its error-collection skeleton: each file's export attempt is abstracted as
an `Except` outcome (`ctm_to_textgrid` touches the aligner object graph and
the filesystem, both external).  With `debug` set an exception re-raises and
aborts the batch (`none`); otherwise the traceback text is recorded under
the file name and the batch continues.  Returns the final `export_errors`
dict. -/
def ctms_to_textgrids_non_mp (debug : Bool) :
    List (Str × Except Str Unit) → List (Str × Str) → Option (List (Str × Str))
  | [], export_errors => some export_errors
  | (_, Except.ok _) :: files, export_errors =>
    ctms_to_textgrids_non_mp debug files export_errors
  | (name, Except.error e) :: files, export_errors =>
    if debug then none
    else ctms_to_textgrids_non_mp debug files (dictSet export_errors name e)

/-- Header line written at the top of `output_errors.txt`. -/
def reportHeader : Str :=
  strL "The following exceptions were encountered during the output of the alignments to TextGrids:\n\n"

/-- One report entry: `f"{file_name}:\n"` then `f"{result}\n\n"`. -/
def reportEntry (kv : Str × Str) : Str :=
  kv.1 ++ strL ":\n" ++ kv.2 ++ strL "\n\n"

/-- `output_textgrid_writing_errors` in `textgrid.py`, modelled on the
post-state of the `output_errors.txt` file: the stale report (`stale`) is
deleted first; then, if any errors were recorded, the file is created with
the header and one entry is appended per failing file.  `none` means the
file does not exist after the call. -/
def output_textgrid_writing_errors (stale : Option Str)
    (export_errors : List (Str × Str)) : Option Str :=
  export_errors.foldl
    (fun st kv => some ((st.getD reportHeader) ++ reportEntry kv)) none

/-- The failing files of a batch, in order, with their error texts. -/
def failuresOf (files : List (Str × Except Str Unit)) : List (Str × Str) :=
  files.filterMap (fun fe =>
    match fe.2 with
    | Except.error e => some (fe.1, e)
    | Except.ok _ => none)

lemma dictSet_append (d : List (Str × Str)) (k v : Str)
    (h : ∀ kv ∈ d, kv.1 ≠ k) : dictSet d k v = d ++ [(k, v)] := by
  rw [dictSet, if_neg]
  simp only [List.any_eq_true, beq_iff_eq, not_exists, not_and]
  intro kv hkv
  exact fun he => h kv hkv he

lemma ctms_collect :
    ∀ (files : List (Str × Except Str Unit)) (errs : List (Str × Str)),
      (files.map Prod.fst).Nodup →
      (∀ kv ∈ errs, kv.1 ∉ files.map Prod.fst) →
      ctms_to_textgrids_non_mp false files errs = some (errs ++ failuresOf files) := by
  intro files
  induction files with
  | nil => intro errs _ _; simp [ctms_to_textgrids_non_mp, failuresOf]
  | cons fe files ih =>
    intro errs hnd hdisj
    rcases fe with ⟨name, res⟩
    have hnd' : (files.map Prod.fst).Nodup := (List.nodup_cons.mp hnd).2
    have hname : name ∉ files.map Prod.fst := (List.nodup_cons.mp hnd).1
    cases res with
    | ok u =>
      rw [ctms_to_textgrids_non_mp]
      rw [ih errs hnd' (fun kv hkv => fun hmem =>
        hdisj kv hkv (List.mem_cons_of_mem _ hmem))]
      simp [failuresOf]
    | error e =>
      rw [ctms_to_textgrids_non_mp]
      simp only [Bool.false_eq_true, if_false]
      have hset : dictSet errs name e = errs ++ [(name, e)] := by
        apply dictSet_append
        intro kv hkv he
        exact hdisj kv hkv (by rw [he]; exact List.mem_cons_self _ _)
      rw [hset]
      rw [ih (errs ++ [(name, e)]) hnd' ?_]
      · simp [failuresOf]
      · intro kv hkv
        rcases List.mem_append.mp hkv with h | h
        · exact fun hmem => hdisj kv h (List.mem_cons_of_mem _ hmem)
        · rw [List.mem_singleton.mp h]
          exact hname

lemma report_fold_some (c : Str) :
    ∀ (l : List (Str × Str)),
      l.foldl (fun st kv => some ((st.getD reportHeader) ++ reportEntry kv)) (some c) =
        some (c ++ (l.map reportEntry).flatten) := by
  intro l
  induction l generalizing c with
  | nil => simp
  | cons kv l ih =>
    simp only [List.foldl_cons, Option.getD_some, List.map_cons, List.flatten_cons]
    rw [ih (c ++ reportEntry kv)]
    simp [List.append_assoc]

/-- Shape of the written report: absent when there are no errors, else the
header followed by one entry per failing file, in order. -/
lemma output_report_shape (stale : Option Str) (errs : List (Str × Str)) :
    output_textgrid_writing_errors stale errs =
      if errs = [] then none
      else some (reportHeader ++ (errs.map reportEntry).flatten) := by
  cases errs with
  | nil => rfl
  | cons kv l =>
    rw [output_textgrid_writing_errors]
    simp only [List.foldl_cons, Option.getD_none]
    rw [report_fold_some (reportHeader ++ reportEntry kv) l]
    simp [List.append_assoc]

/-- C7: for a batch with the debug flag off and distinct file names, the
batch always runs to completion (a failing file never aborts it) and
collects exactly the failing files with their error texts, in order; the
report file is deleted and rewritten from scratch (its content is
independent of any stale report), exists exactly when at least one file
failed, and then consists of the header plus one entry (file name and full
error text) per failing file. -/
theorem ctms_batch_error_report (files : List (Str × Except Str Unit))
    (stale : Option Str) (hnd : (files.map Prod.fst).Nodup) :
    ctms_to_textgrids_non_mp false files [] = some (failuresOf files) ∧
    (output_textgrid_writing_errors stale (failuresOf files) = none ↔
      failuresOf files = []) ∧
    (failuresOf files ≠ [] →
      output_textgrid_writing_errors stale (failuresOf files) =
        some (reportHeader ++ ((failuresOf files).map reportEntry).flatten)) ∧
    output_textgrid_writing_errors stale (failuresOf files) =
      output_textgrid_writing_errors none (failuresOf files) := by
  refine ⟨?_, ?_, ?_, rfl⟩
  · have h := ctms_collect files [] hnd (by simp)
    simpa using h
  · rw [output_report_shape]
    by_cases h : failuresOf files = []
    · simp [h]
    · rw [if_neg h]
      simp [h]
  · intro h
    rw [output_report_shape, if_neg h]

/-- C7 witness: three files of which exactly one fails; the batch completes
and the report contains exactly that file's entry. -/
theorem ctms_batch_error_report_witness :
    ctms_to_textgrids_non_mp false
        [(strL "f1", Except.ok ()), (strL "f2", Except.error (strL "boom")),
          (strL "f3", Except.ok ())] [] =
      some [(strL "f2", strL "boom")] ∧
    output_textgrid_writing_errors (some (strL "old")) [(strL "f2", strL "boom")] =
      some (reportHeader ++ reportEntry (strL "f2", strL "boom")) := by
  have h := ctms_batch_error_report
    [(strL "f1", Except.ok ()), (strL "f2", Except.error (strL "boom")),
      (strL "f3", Except.ok ())] (some (strL "old")) (by decide)
  have hfail : failuresOf
      [(strL "f1", Except.ok ()), (strL "f2", Except.error (strL "boom")),
        (strL "f3", Except.ok ())] = [(strL "f2", strL "boom")] := by decide
  constructor
  · rw [h.1, hfail]
  · have h3 := h.2.2.1 (by rw [hfail]; simp)
    rw [hfail] at h3
    rw [h3]
    simp
